import Mathlib

/-!
Verification of the WDL-model fitting pipeline (scoreWDL.py).

The development embeds the core pipeline of the source file:
aggregation filter, Python `Counter` accumulation, rate computation,
per-move bucket gathering and fit gating, the cross-move fit stage,
the normalization outputs, and the `wdl` predictor.  The two calls to
`scipy.optimize.curve_fit` are external library calls and are modelled
as oracle function parameters; everything around them follows the
source line by line.  Scores and rates are modelled as exact rationals
(Python floats), probabilities through `Real.exp`.
-/

/-- Game outcome tag of a raw observation ("W" / "D" / "L" in the JSON keys). -/
inductive Outcome
  | W
  | D
  | L
deriving DecidableEq, Repr

/-- One entry of the input dictionary: key `(result, move, material, score)`
mapped to an occurrence count. -/
structure RawEntry where
  outcome : Outcome
  move : ℤ
  material : ℤ
  score : ℤ
  count : ℕ
deriving DecidableEq, Repr

/-- The aggregation filter (line 47): an entry is kept unless
`abs(score) > 400 or move < 0 or move > 120`. -/
def keep (move score : ℤ) : Bool :=
  if 400 < |score| ∨ move < 0 ∨ 120 < move then false else true

/-- Rescaled coordinate of an entry (line 51): `score * NormalizeToPawnValue / 100`
paired with the move number. -/
def coordOf (N : ℤ) (e : RawEntry) : ℚ × ℤ :=
  (((e.score * N : ℤ) : ℚ) / 100, e.move)

/-- Model of a Python `collections.Counter` keyed by rescaled coordinates:
its key list in insertion order and its value function.  `c[k] += v` adds
the key even when `v = 0`, exactly as `Counter.__setitem__` does. -/
structure PyCounter where
  keys : List (ℚ × ℤ)
  val : ℚ × ℤ → ℕ

/-- The empty counter. -/
def PyCounter.empty : PyCounter := ⟨[], fun _ => 0⟩

/-- Python counter update `c[k] += v`. -/
def PyCounter.add (c : PyCounter) (k : ℚ × ℤ) (v : ℕ) : PyCounter :=
  ⟨if k ∈ c.keys then c.keys else c.keys ++ [k],
   fun x => if x = k then c.val k + v else c.val x⟩

/-- Model of `sum(c.values())` on a Python counter. -/
def PyCounter.total (c : PyCounter) : ℕ := (c.keys.map c.val).sum

/-- One iteration of the aggregation loop (lines 45-58): filter, rescale,
and accumulate into the counter matching the outcome. -/
def aggStep (N : ℤ) (acc : PyCounter × PyCounter × PyCounter) (e : RawEntry) :
    PyCounter × PyCounter × PyCounter :=
  if keep e.move e.score then
    match e.outcome with
    | Outcome.W => (acc.1.add (coordOf N e) e.count, acc.2.1, acc.2.2)
    | Outcome.D => (acc.1, acc.2.1.add (coordOf N e) e.count, acc.2.2)
    | Outcome.L => (acc.1, acc.2.1, acc.2.2.add (coordOf N e) e.count)
  else acc

/-- The aggregation loop over the whole input, producing the `win`, `draw`
and `loss` counters. -/
def aggregate (N : ℤ) (input : List RawEntry) : PyCounter × PyCounter × PyCounter :=
  input.foldl (aggStep N) (PyCounter.empty, PyCounter.empty, PyCounter.empty)

/-- Python's ascending order on `(score, move)` tuples. -/
def tupLE (a b : ℚ × ℤ) : Prop :=
  a.1 < b.1 ∨ (a.1 = b.1 ∧ a.2 ≤ b.2)

instance : DecidableRel tupLE := fun a b => by
  unfold tupLE
  infer_instance

instance : IsTotal (ℚ × ℤ) tupLE :=
  ⟨fun a b => by
    unfold tupLE
    rcases lt_trichotomy a.1 b.1 with h | h | h
    · exact Or.inl (Or.inl h)
    · rcases le_total a.2 b.2 with h2 | h2
      · exact Or.inl (Or.inr ⟨h, h2⟩)
      · exact Or.inr (Or.inr ⟨h.symm, h2⟩)
    · exact Or.inr (Or.inl h)⟩

instance : IsTrans (ℚ × ℤ) tupLE :=
  ⟨fun a b c hab hbc => by
    unfold tupLE at *
    rcases hab with h | ⟨h, h2⟩ <;> rcases hbc with h' | ⟨h', h2'⟩
    · exact Or.inl (h.trans h')
    · exact Or.inl (h'.symm ▸ h)
    · exact Or.inl (h ▸ h')
    · exact Or.inr ⟨h.trans h', h2.trans h2'⟩⟩

instance : IsAntisymm (ℚ × ℤ) tupLE :=
  ⟨fun a b hab hba => by
    unfold tupLE at *
    rcases hab with h | ⟨h, h2⟩ <;> rcases hba with h' | ⟨h', h2'⟩
    · exact absurd (h.trans h') (lt_irrefl _)
    · exact absurd h (h'.symm ▸ lt_irrefl _)
    · exact absurd h' (h ▸ lt_irrefl _)
    · exact Prod.ext h (le_antisymm h2 h2')⟩

/-- The sorted coordinate list `sorted(set(list(win.keys()) + list(draw.keys()) + list(loss.keys())))` of line 65. -/
def pipelineCoords (cs : PyCounter × PyCounter × PyCounter) : List (ℚ × ℤ) :=
  List.insertionSort tupLE ((cs.1.keys ++ cs.2.1.keys ++ cs.2.2.keys).dedup)

/-- The count total `win[x, y] + draw[x, y] + loss[x, y]` at one coordinate (line 70). -/
def totalAt (cs : PyCounter × PyCounter × PyCounter) (c : ℚ × ℤ) : ℕ :=
  cs.1.val c + cs.2.1.val c + cs.2.2.val c

/-- The three rates appended at one coordinate (lines 71-73). -/
def ratesAt (cs : PyCounter × PyCounter × PyCounter) (c : ℚ × ℤ) : ℚ × ℚ × ℚ :=
  ((cs.1.val c : ℚ) / (totalAt cs c : ℚ),
   (cs.2.1.val c : ℚ) / (totalAt cs c : ℚ),
   (cs.2.2.val c : ℚ) / (totalAt cs c : ℚ))

/-- The parallel lists `scores, moves, winrate` produced by the rate loop
(lines 66-73 and 132), one triple per sorted coordinate. -/
def sampleList (N : ℤ) (input : List RawEntry) : List (ℚ × ℤ × ℚ) :=
  let cs := aggregate N input
  (pipelineCoords cs).map (fun c => (c.1, c.2, (ratesAt cs c).1))

/-- Bucket width (line 136). -/
def grouping : ℕ := 1

/-- Membership test of the bucket-gathering loop (line 142): an index is
skipped when `moves[i] < mmin or moves[i] >= mmax` with `mmax = m + grouping`. -/
def inBucket (m : ℕ) (mv : ℤ) : Bool :=
  if mv < (m : ℤ) ∨ (m : ℤ) + (grouping : ℤ) ≤ mv then false else true

/-- The samples gathered for the bucket starting at move `m` (lines 140-147). -/
def bucketData (samples : List (ℚ × ℤ × ℚ)) (m : ℕ) : List (ℚ × ℤ × ℚ) :=
  samples.filter (fun s => inBucket m s.2.1)

/-- Bucket starts `range(3, 120, grouping)` (line 137): the moves 3, 4, ..., 119. -/
def moveRange : List ℕ := List.range' 3 117 grouping

/-- The per-move fitting loop (lines 137-161) with `curve_fit` abstracted as a
total oracle `fit` mapping `(xdata, ydata)` to the fitted pair `(a, b)`:
buckets with fewer than 10 samples are skipped, every other bucket appends
`(m, a, b)` to the model lists. -/
def fitLoopT (fit : List ℚ → List ℚ → ℚ × ℚ) (samples : List (ℚ × ℤ × ℚ)) :
    List (ℕ × ℚ × ℚ) :=
  moveRange.filterMap (fun m =>
    let b := bucketData samples m
    if b.length < 10 then none
    else some (m, fit (b.map (fun s => s.1)) (b.map (fun s => s.2.2))))

/-- The per-move fitting loop with a fallible `curve_fit` oracle: `none`
models `scipy.optimize.curve_fit` raising (e.g. `RuntimeError` on
non-convergence).  The source has no `try/except` around the call
(lines 153-158), so a raise propagates out of the loop: the model
returns `Except.error ()` and no later bucket is processed into a result. -/
def fitLoopEAux (fit : List ℚ → List ℚ → Option (ℚ × ℚ)) (samples : List (ℚ × ℤ × ℚ)) :
    List ℕ → Except Unit (List (ℕ × ℚ × ℚ))
  | [] => Except.ok []
  | m :: ms =>
    let b := bucketData samples m
    if b.length < 10 then fitLoopEAux fit samples ms
    else
      match fit (b.map (fun s => s.1)) (b.map (fun s => s.2.2)) with
      | none => Except.error ()
      | some p => (fitLoopEAux fit samples ms).map (fun r => (m, p.1, p.2) :: r)

/-- The per-move fitting loop over the full bucket range, with a fallible
fit oracle. -/
def fitLoopE (fit : List ℚ → List ℚ → Option (ℚ × ℚ)) (samples : List (ℚ × ℤ × ℚ)) :
    Except Unit (List (ℕ × ℚ × ℚ)) :=
  fitLoopEAux fit samples moveRange

/-- The pipeline from raw input to the per-bucket model triples and the two
cross-move coefficient sets (lines 45-73, 137-161, 203-204), with the two
`curve_fit` stages abstracted as oracles `fit` and `pfit`. -/
def pipeline (N : ℤ) (fit : List ℚ → List ℚ → ℚ × ℚ)
    (pfit : List ℕ → List ℚ → ℚ × ℚ × ℚ × ℚ) (input : List RawEntry) :
    List (ℕ × ℚ × ℚ) × (ℚ × ℚ × ℚ × ℚ) × (ℚ × ℚ × ℚ × ℚ) :=
  let tr := fitLoopT fit (sampleList N input)
  let popt_as := pfit (tr.map (fun t => t.1)) (tr.map (fun t => t.2.1))
  let popt_bs := pfit (tr.map (fun t => t.1)) (tr.map (fun t => t.2.2))
  (tr, popt_as, popt_bs)

/-- Python `int()` applied to a rational value: truncation toward zero. -/
def pytrunc (q : ℚ) : ℤ := if 0 ≤ q then ⌊q⌋ else ⌈q⌉

/-- Sum `sum(popt)` of the four polynomial coefficients (lines 211-212). -/
def fsum (p : ℚ × ℚ × ℚ × ℚ) : ℚ := p.1 + p.2.1 + p.2.2.1 + p.2.2.2

/-- Printed normalization value `int(fsum_a)` (line 213). -/
def normConstant (popt_as : ℚ × ℚ × ℚ × ℚ) : ℤ := pytrunc (fsum popt_as)

/-- Printed spread `int(fsum_b)` (line 214). -/
def normSpread (popt_bs : ℚ × ℚ × ℚ × ℚ) : ℤ := pytrunc (fsum popt_bs)

/-- Printed normalized spread `fsum_b / fsum_a` (line 215). -/
def normalizedSpread (popt_as popt_bs : ℚ × ℚ × ℚ × ℚ) : ℚ :=
  fsum popt_bs / fsum popt_as

/-- Printed draw rate at zero eval, `1 - 2 / (1 + exp(fsum_a / fsum_b))` (line 217). -/
noncomputable def drawRateAtZero (popt_as popt_bs : ℚ × ℚ × ℚ × ℚ) : ℝ :=
  1 - 2 / (1 + Real.exp ((fsum popt_as / fsum popt_bs : ℚ) : ℝ))

/-- The logistic win model (lines 81-82). -/
noncomputable def winmodel (x a b : ℝ) : ℝ :=
  1.0 / (1.0 + Real.exp (-(x - a) / b))

/-- The cubic in normalized move number (lines 85-87), with the reference
move `moveTarget` as an explicit parameter. -/
noncomputable def poly3 (moveTarget x : ℝ) (p : ℝ × ℝ × ℝ × ℝ) : ℝ :=
  ((p.1 * (x / moveTarget) + p.2.1) * (x / moveTarget) + p.2.2.1) * (x / moveTarget) + p.2.2.2

/-- Python `int()` applied to a real value: truncation toward zero. -/
noncomputable def pytruncR (x : ℝ) : ℤ := if 0 ≤ x then ⌊x⌋ else ⌈x⌉

/-- The WDL predictor (lines 97-103): per-mille win and loss obtained by
`int(1000 * winmodel(...))`, draw as the exact remainder to 1000. -/
noncomputable def wdl (score move : ℝ) (popt_as popt_bs : ℝ × ℝ × ℝ × ℝ)
    (moveTarget : ℝ) : ℤ × ℤ × ℤ :=
  let a := poly3 moveTarget move popt_as
  let b := poly3 moveTarget move popt_bs
  let w := pytruncR (1000 * winmodel score a b)
  let l := pytruncR (1000 * winmodel (-score) a b)
  let d := 1000 - w - l
  (w, d, l)

/-- Moves that fall in some fitting bucket are exactly those outside
`{0, 1, 2, 120}` among the moves the filter retains; this Boolean marks an
entry as relevant to the fitting stages. -/
def relevantMove (m : ℤ) : Bool :=
  !(m == 0 || m == 1 || m == 2 || m == 120)

/-- Structural invariant of the counters the aggregation loop builds: the
key list has no duplicates and the value function vanishes off the keys. -/
def PyCounter.Good (c : PyCounter) : Prop :=
  c.keys.Nodup ∧ ∀ k, k ∉ c.keys → c.val k = 0

/-- Contribution of one raw entry to the win counter at coordinate `c`. -/
def wWeight (N : ℤ) (c : ℚ × ℤ) (e : RawEntry) : ℕ :=
  if keep e.move e.score = true ∧ e.outcome = Outcome.W ∧ coordOf N e = c then e.count else 0

/-- Contribution of one raw entry to the draw counter at coordinate `c`. -/
def dWeight (N : ℤ) (c : ℚ × ℤ) (e : RawEntry) : ℕ :=
  if keep e.move e.score = true ∧ e.outcome = Outcome.D ∧ coordOf N e = c then e.count else 0

/-- Contribution of one raw entry to the loss counter at coordinate `c`. -/
def lWeight (N : ℤ) (c : ℚ × ℤ) (e : RawEntry) : ℕ :=
  if keep e.move e.score = true ∧ e.outcome = Outcome.L ∧ coordOf N e = c then e.count else 0

/-- Count of an entry when the filter retains it, 0 otherwise. -/
def keptCount (e : RawEntry) : ℕ :=
  if keep e.move e.score = true then e.count else 0

/-- The retained-positions total reported on lines 60-62:
`sum(win.values()) + sum(draw.values()) + sum(loss.values())`. -/
def totalRetained (N : ℤ) (input : List RawEntry) : ℕ :=
  (aggregate N input).1.total + (aggregate N input).2.1.total + (aggregate N input).2.2.total

/-- Total occurrence count of the raw input. -/
def totalRaw (input : List RawEntry) : ℕ :=
  (input.map (fun e => e.count)).sum

/-- Relevance of a rate sample to the fitting stages. -/
def relevantS (s : ℚ × ℤ × ℚ) : Bool := relevantMove s.2.1

/-- Relevance of a raw entry to the fitting stages. -/
def relevantE (e : RawEntry) : Bool := relevantMove e.move

theorem keep_iff (m s : ℤ) : keep m s = true ↔ |s| ≤ 400 ∧ 0 ≤ m ∧ m ≤ 120 := by
  unfold keep
  split_ifs with h
  · simp only [Bool.false_eq_true, false_iff]
    intro hc
    rcases h with h | h | h
    · exact absurd h (not_lt.mpr hc.1)
    · exact absurd h (not_lt.mpr hc.2.1)
    · exact absurd h (not_lt.mpr hc.2.2)
  · push_neg at h
    simp only [true_iff]
    exact h

theorem PyCounter.val_add (c : PyCounter) (k : ℚ × ℤ) (v : ℕ) (x : ℚ × ℤ) :
    (c.add k v).val x = c.val x + if x = k then v else 0 := by
  unfold PyCounter.add
  dsimp only
  split_ifs with h
  · subst h
    rfl
  · rfl

theorem PyCounter.mem_keys_add (c : PyCounter) (k : ℚ × ℤ) (v : ℕ) (x : ℚ × ℤ) :
    x ∈ (c.add k v).keys ↔ x ∈ c.keys ∨ x = k := by
  unfold PyCounter.add
  dsimp only
  split_ifs with h
  · constructor
    · exact Or.inl
    · rintro (hx | rfl)
      · exact hx
      · exact h
  · simp [List.mem_append]

theorem PyCounter.Good.add {c : PyCounter} (h : c.Good) (k : ℚ × ℤ) (v : ℕ) :
    (c.add k v).Good := by
  obtain ⟨hnd, hz⟩ := h
  constructor
  · unfold PyCounter.add
    dsimp only
    split_ifs with hk
    · exact hnd
    · exact List.Nodup.append hnd (List.nodup_singleton k)
        (fun x hx hxk => hk (by rwa [List.mem_singleton.mp hxk] at hx))
  · intro x hx
    rw [PyCounter.mem_keys_add] at hx
    push_neg at hx
    rw [PyCounter.val_add, if_neg hx.2, hz x hx.1]

theorem sum_map_update_mem {l : List (ℚ × ℤ)} (f : (ℚ × ℤ) → ℕ) (k : ℚ × ℤ) (v : ℕ)
    (hnd : l.Nodup) (hk : k ∈ l) :
    (l.map (fun x => if x = k then f k + v else f x)).sum = (l.map f).sum + v := by
  induction l with
  | nil => cases hk
  | cons a t ih =>
    rcases List.mem_cons.mp hk with heq | hk'
    · subst heq
      have ha : k ∉ t := (List.nodup_cons.mp hnd).1
      simp only [List.map_cons, List.sum_cons, eq_self_iff_true, if_true]
      have ht : t.map (fun x => if x = k then f k + v else f x) = t.map f := by
        refine List.map_congr_left (fun x hx => ?_)
        have hxa : x ≠ k := fun e => ha (e ▸ hx)
        simp [hxa]
      rw [ht]
      omega
    · have hne : a ≠ k := fun e => (List.nodup_cons.mp hnd).1 (e ▸ hk')
      simp only [List.map_cons, List.sum_cons, if_neg hne]
      rw [ih (List.nodup_cons.mp hnd).2 hk']
      omega

theorem PyCounter.total_add {c : PyCounter} (h : c.Good) (k : ℚ × ℤ) (v : ℕ) :
    (c.add k v).total = c.total + v := by
  obtain ⟨hnd, hz⟩ := h
  unfold PyCounter.total PyCounter.add
  dsimp only
  split_ifs with hk
  · exact sum_map_update_mem c.val k v hnd hk
  · rw [List.map_append, List.sum_append]
    have ht : c.keys.map (fun x => if x = k then c.val k + v else c.val x) = c.keys.map c.val := by
      refine List.map_congr_left (fun x hx => ?_)
      have hxk : x ≠ k := fun e => hk (e ▸ hx)
      simp [hxk]
    rw [ht]
    simp [hz k hk]

theorem aggStep_val_w (N : ℤ) (acc : PyCounter × PyCounter × PyCounter) (e : RawEntry)
    (c : ℚ × ℤ) : (aggStep N acc e).1.val c = acc.1.val c + wWeight N c e := by
  unfold aggStep wWeight
  by_cases hk : keep e.move e.score = true
  · rw [if_pos hk]
    cases ho : e.outcome
    · dsimp only
      rw [PyCounter.val_add]
      congr 1
      simp [hk, ho, eq_comm]
    · dsimp only
      simp [hk, ho]
    · dsimp only
      simp [hk, ho]
  · rw [if_neg hk]
    simp [hk]

theorem aggStep_val_d (N : ℤ) (acc : PyCounter × PyCounter × PyCounter) (e : RawEntry)
    (c : ℚ × ℤ) : (aggStep N acc e).2.1.val c = acc.2.1.val c + dWeight N c e := by
  unfold aggStep dWeight
  by_cases hk : keep e.move e.score = true
  · rw [if_pos hk]
    cases ho : e.outcome
    · dsimp only
      simp [hk, ho]
    · dsimp only
      rw [PyCounter.val_add]
      congr 1
      simp [hk, ho, eq_comm]
    · dsimp only
      simp [hk, ho]
  · rw [if_neg hk]
    simp [hk]

theorem aggStep_val_l (N : ℤ) (acc : PyCounter × PyCounter × PyCounter) (e : RawEntry)
    (c : ℚ × ℤ) : (aggStep N acc e).2.2.val c = acc.2.2.val c + lWeight N c e := by
  unfold aggStep lWeight
  by_cases hk : keep e.move e.score = true
  · rw [if_pos hk]
    cases ho : e.outcome
    · dsimp only
      simp [hk, ho]
    · dsimp only
      simp [hk, ho]
    · dsimp only
      rw [PyCounter.val_add]
      congr 1
      simp [hk, ho, eq_comm]
  · rw [if_neg hk]
    simp [hk]

theorem foldl_val_w (N : ℤ) (input : List RawEntry) (acc : PyCounter × PyCounter × PyCounter)
    (c : ℚ × ℤ) : (input.foldl (aggStep N) acc).1.val c
      = acc.1.val c + (input.map (wWeight N c)).sum := by
  induction input generalizing acc with
  | nil => simp
  | cons e t ih =>
    rw [List.foldl_cons, ih, aggStep_val_w]
    simp only [List.map_cons, List.sum_cons]
    omega

theorem foldl_val_d (N : ℤ) (input : List RawEntry) (acc : PyCounter × PyCounter × PyCounter)
    (c : ℚ × ℤ) : (input.foldl (aggStep N) acc).2.1.val c
      = acc.2.1.val c + (input.map (dWeight N c)).sum := by
  induction input generalizing acc with
  | nil => simp
  | cons e t ih =>
    rw [List.foldl_cons, ih, aggStep_val_d]
    simp only [List.map_cons, List.sum_cons]
    omega

theorem foldl_val_l (N : ℤ) (input : List RawEntry) (acc : PyCounter × PyCounter × PyCounter)
    (c : ℚ × ℤ) : (input.foldl (aggStep N) acc).2.2.val c
      = acc.2.2.val c + (input.map (lWeight N c)).sum := by
  induction input generalizing acc with
  | nil => simp
  | cons e t ih =>
    rw [List.foldl_cons, ih, aggStep_val_l]
    simp only [List.map_cons, List.sum_cons]
    omega

theorem aggregate_val_w (N : ℤ) (input : List RawEntry) (c : ℚ × ℤ) :
    (aggregate N input).1.val c = (input.map (wWeight N c)).sum := by
  unfold aggregate
  rw [foldl_val_w]
  simp [PyCounter.empty]

theorem aggregate_val_d (N : ℤ) (input : List RawEntry) (c : ℚ × ℤ) :
    (aggregate N input).2.1.val c = (input.map (dWeight N c)).sum := by
  unfold aggregate
  rw [foldl_val_d]
  simp [PyCounter.empty]

theorem aggregate_val_l (N : ℤ) (input : List RawEntry) (c : ℚ × ℤ) :
    (aggregate N input).2.2.val c = (input.map (lWeight N c)).sum := by
  unfold aggregate
  rw [foldl_val_l]
  simp [PyCounter.empty]

theorem aggStep_keys_w (N : ℤ) (acc : PyCounter × PyCounter × PyCounter) (e : RawEntry)
    (c : ℚ × ℤ) : c ∈ (aggStep N acc e).1.keys
      ↔ c ∈ acc.1.keys ∨ (keep e.move e.score = true ∧ e.outcome = Outcome.W ∧ coordOf N e = c) := by
  unfold aggStep
  by_cases hk : keep e.move e.score = true
  · rw [if_pos hk]
    cases ho : e.outcome
    · dsimp only
      rw [PyCounter.mem_keys_add]
      simp [hk, ho, eq_comm]
    · simp [hk, ho]
    · simp [hk, ho]
  · rw [if_neg hk]
    simp [hk]

theorem aggStep_keys_d (N : ℤ) (acc : PyCounter × PyCounter × PyCounter) (e : RawEntry)
    (c : ℚ × ℤ) : c ∈ (aggStep N acc e).2.1.keys
      ↔ c ∈ acc.2.1.keys ∨ (keep e.move e.score = true ∧ e.outcome = Outcome.D ∧ coordOf N e = c) := by
  unfold aggStep
  by_cases hk : keep e.move e.score = true
  · rw [if_pos hk]
    cases ho : e.outcome
    · simp [hk, ho]
    · dsimp only
      rw [PyCounter.mem_keys_add]
      simp [hk, ho, eq_comm]
    · simp [hk, ho]
  · rw [if_neg hk]
    simp [hk]

theorem aggStep_keys_l (N : ℤ) (acc : PyCounter × PyCounter × PyCounter) (e : RawEntry)
    (c : ℚ × ℤ) : c ∈ (aggStep N acc e).2.2.keys
      ↔ c ∈ acc.2.2.keys ∨ (keep e.move e.score = true ∧ e.outcome = Outcome.L ∧ coordOf N e = c) := by
  unfold aggStep
  by_cases hk : keep e.move e.score = true
  · rw [if_pos hk]
    cases ho : e.outcome
    · simp [hk, ho]
    · simp [hk, ho]
    · dsimp only
      rw [PyCounter.mem_keys_add]
      simp [hk, ho, eq_comm]
  · rw [if_neg hk]
    simp [hk]

theorem foldl_keys_w (N : ℤ) (input : List RawEntry) (acc : PyCounter × PyCounter × PyCounter)
    (c : ℚ × ℤ) : c ∈ (input.foldl (aggStep N) acc).1.keys
      ↔ c ∈ acc.1.keys ∨ ∃ e ∈ input,
          keep e.move e.score = true ∧ e.outcome = Outcome.W ∧ coordOf N e = c := by
  induction input generalizing acc with
  | nil => simp
  | cons e t ih =>
    rw [List.foldl_cons, ih, aggStep_keys_w]
    simp only [List.mem_cons]
    constructor
    · rintro ((h | h) | ⟨e', he', h⟩)
      · exact Or.inl h
      · exact Or.inr ⟨e, Or.inl rfl, h⟩
      · exact Or.inr ⟨e', Or.inr he', h⟩
    · rintro (h | ⟨e', (rfl | he'), h⟩)
      · exact Or.inl (Or.inl h)
      · exact Or.inl (Or.inr h)
      · exact Or.inr ⟨e', he', h⟩

theorem foldl_keys_d (N : ℤ) (input : List RawEntry) (acc : PyCounter × PyCounter × PyCounter)
    (c : ℚ × ℤ) : c ∈ (input.foldl (aggStep N) acc).2.1.keys
      ↔ c ∈ acc.2.1.keys ∨ ∃ e ∈ input,
          keep e.move e.score = true ∧ e.outcome = Outcome.D ∧ coordOf N e = c := by
  induction input generalizing acc with
  | nil => simp
  | cons e t ih =>
    rw [List.foldl_cons, ih, aggStep_keys_d]
    simp only [List.mem_cons]
    constructor
    · rintro ((h | h) | ⟨e', he', h⟩)
      · exact Or.inl h
      · exact Or.inr ⟨e, Or.inl rfl, h⟩
      · exact Or.inr ⟨e', Or.inr he', h⟩
    · rintro (h | ⟨e', (rfl | he'), h⟩)
      · exact Or.inl (Or.inl h)
      · exact Or.inl (Or.inr h)
      · exact Or.inr ⟨e', he', h⟩

theorem foldl_keys_l (N : ℤ) (input : List RawEntry) (acc : PyCounter × PyCounter × PyCounter)
    (c : ℚ × ℤ) : c ∈ (input.foldl (aggStep N) acc).2.2.keys
      ↔ c ∈ acc.2.2.keys ∨ ∃ e ∈ input,
          keep e.move e.score = true ∧ e.outcome = Outcome.L ∧ coordOf N e = c := by
  induction input generalizing acc with
  | nil => simp
  | cons e t ih =>
    rw [List.foldl_cons, ih, aggStep_keys_l]
    simp only [List.mem_cons]
    constructor
    · rintro ((h | h) | ⟨e', he', h⟩)
      · exact Or.inl h
      · exact Or.inr ⟨e, Or.inl rfl, h⟩
      · exact Or.inr ⟨e', Or.inr he', h⟩
    · rintro (h | ⟨e', (rfl | he'), h⟩)
      · exact Or.inl (Or.inl h)
      · exact Or.inl (Or.inr h)
      · exact Or.inr ⟨e', he', h⟩

theorem aggregate_keys_w (N : ℤ) (input : List RawEntry) (c : ℚ × ℤ) :
    c ∈ (aggregate N input).1.keys
      ↔ ∃ e ∈ input, keep e.move e.score = true ∧ e.outcome = Outcome.W ∧ coordOf N e = c := by
  unfold aggregate
  rw [foldl_keys_w]
  simp [PyCounter.empty]

theorem aggregate_keys_d (N : ℤ) (input : List RawEntry) (c : ℚ × ℤ) :
    c ∈ (aggregate N input).2.1.keys
      ↔ ∃ e ∈ input, keep e.move e.score = true ∧ e.outcome = Outcome.D ∧ coordOf N e = c := by
  unfold aggregate
  rw [foldl_keys_d]
  simp [PyCounter.empty]

theorem aggregate_keys_l (N : ℤ) (input : List RawEntry) (c : ℚ × ℤ) :
    c ∈ (aggregate N input).2.2.keys
      ↔ ∃ e ∈ input, keep e.move e.score = true ∧ e.outcome = Outcome.L ∧ coordOf N e = c := by
  unfold aggregate
  rw [foldl_keys_l]
  simp [PyCounter.empty]

theorem aggStep_good (N : ℤ) (acc : PyCounter × PyCounter × PyCounter) (e : RawEntry)
    (h1 : acc.1.Good) (h2 : acc.2.1.Good) (h3 : acc.2.2.Good) :
    (aggStep N acc e).1.Good ∧ (aggStep N acc e).2.1.Good ∧ (aggStep N acc e).2.2.Good := by
  unfold aggStep
  by_cases hk : keep e.move e.score = true
  · rw [if_pos hk]
    cases ho : e.outcome
    · exact ⟨h1.add _ _, h2, h3⟩
    · exact ⟨h1, h2.add _ _, h3⟩
    · exact ⟨h1, h2, h3.add _ _⟩
  · rw [if_neg hk]
    exact ⟨h1, h2, h3⟩

theorem aggStep_total (N : ℤ) (acc : PyCounter × PyCounter × PyCounter) (e : RawEntry)
    (h1 : acc.1.Good) (h2 : acc.2.1.Good) (h3 : acc.2.2.Good) :
    (aggStep N acc e).1.total + (aggStep N acc e).2.1.total + (aggStep N acc e).2.2.total
      = acc.1.total + acc.2.1.total + acc.2.2.total + keptCount e := by
  unfold aggStep keptCount
  by_cases hk : keep e.move e.score = true
  · rw [if_pos hk, if_pos hk]
    cases ho : e.outcome
    · dsimp only
      rw [PyCounter.total_add h1]
      omega
    · dsimp only
      rw [PyCounter.total_add h2]
      omega
    · dsimp only
      rw [PyCounter.total_add h3]
      omega
  · rw [if_neg hk, if_neg hk]
    omega

theorem foldl_total (N : ℤ) (input : List RawEntry) (acc : PyCounter × PyCounter × PyCounter)
    (h1 : acc.1.Good) (h2 : acc.2.1.Good) (h3 : acc.2.2.Good) :
    (input.foldl (aggStep N) acc).1.total + (input.foldl (aggStep N) acc).2.1.total
        + (input.foldl (aggStep N) acc).2.2.total
      = acc.1.total + acc.2.1.total + acc.2.2.total + (input.map keptCount).sum := by
  induction input generalizing acc with
  | nil => simp
  | cons e t ih =>
    obtain ⟨g1, g2, g3⟩ := aggStep_good N acc e h1 h2 h3
    rw [List.foldl_cons, ih (aggStep N acc e) g1 g2 g3, aggStep_total N acc e h1 h2 h3]
    simp only [List.map_cons, List.sum_cons]
    omega

theorem empty_good : PyCounter.empty.Good := by
  constructor
  · exact List.nodup_nil
  · intro k _
    rfl

theorem totalRetained_eq (N : ℤ) (input : List RawEntry) :
    totalRetained N input = (input.map keptCount).sum := by
  unfold totalRetained aggregate
  rw [foldl_total N input _ empty_good empty_good empty_good]
  simp [PyCounter.total, PyCounter.empty]

theorem pipelineCoords_sorted (cs : PyCounter × PyCounter × PyCounter) :
    List.Sorted tupLE (pipelineCoords cs) :=
  List.sorted_insertionSort tupLE _

theorem pipelineCoords_nodup (cs : PyCounter × PyCounter × PyCounter) :
    (pipelineCoords cs).Nodup :=
  ((List.perm_insertionSort tupLE _).nodup_iff).mpr (List.nodup_dedup _)

theorem mem_pipelineCoords (cs : PyCounter × PyCounter × PyCounter) (c : ℚ × ℤ) :
    c ∈ pipelineCoords cs ↔ c ∈ cs.1.keys ∨ c ∈ cs.2.1.keys ∨ c ∈ cs.2.2.keys := by
  unfold pipelineCoords
  rw [List.mem_insertionSort, List.mem_dedup]
  simp [List.mem_append, or_assoc]

theorem mem_coords_agg (N : ℤ) (input : List RawEntry) (c : ℚ × ℤ) :
    c ∈ pipelineCoords (aggregate N input)
      ↔ ∃ e ∈ input, keep e.move e.score = true ∧ coordOf N e = c := by
  rw [mem_pipelineCoords, aggregate_keys_w, aggregate_keys_d, aggregate_keys_l]
  constructor
  · rintro (⟨e, he, hk, _, hc⟩ | ⟨e, he, hk, _, hc⟩ | ⟨e, he, hk, _, hc⟩) <;>
      exact ⟨e, he, hk, hc⟩
  · rintro ⟨e, he, hk, hc⟩
    cases ho : e.outcome
    · exact Or.inl ⟨e, he, hk, ho, hc⟩
    · exact Or.inr (Or.inl ⟨e, he, hk, ho, hc⟩)
    · exact Or.inr (Or.inr ⟨e, he, hk, ho, hc⟩)

theorem totalAt_aggregate (N : ℤ) (input : List RawEntry) (c : ℚ × ℤ) :
    totalAt (aggregate N input) c
      = (input.map (wWeight N c)).sum + (input.map (dWeight N c)).sum
        + (input.map (lWeight N c)).sum := by
  unfold totalAt
  rw [aggregate_val_w, aggregate_val_d, aggregate_val_l]

theorem keptCount_le (e : RawEntry) : keptCount e ≤ e.count := by
  unfold keptCount
  split_ifs <;> omega

theorem sum_kept_eq_iff (input : List RawEntry) :
    ((input.map keptCount).sum = (input.map (fun e => e.count)).sum)
      ↔ ∀ e ∈ input, keep e.move e.score = false → e.count = 0 := by
  induction input with
  | nil => simp
  | cons a t ih =>
    simp only [List.map_cons, List.sum_cons, List.mem_cons]
    have h1 : keptCount a ≤ a.count := keptCount_le a
    have h2 : (t.map keptCount).sum ≤ (t.map (fun e => e.count)).sum :=
      List.sum_le_sum (fun e _ => keptCount_le e)
    constructor
    · intro heq
      have ha : keptCount a = a.count := by omega
      have ht : (t.map keptCount).sum = (t.map (fun e => e.count)).sum := by omega
      intro e he hkf
      rcases he with rfl | he
      · simpa [keptCount, hkf] using ha.symm
      · exact (ih.mp ht) e he hkf
    · intro hall
      have ha : keptCount a = a.count := by
        cases hk : keep a.move a.score
        · have := hall a (Or.inl rfl) hk
          simp [keptCount, hk, this]
        · simp [keptCount, hk]
      have ht := ih.mpr (fun e he h => hall e (Or.inr he) h)
      omega

/-- C2 (amended): the aggregation filter retains exactly the entries with
`abs(score) <= 400` and move in `[0, 120]`; in particular score 400 is
retained, 401 dropped, moves 119 and 120 retained, move -1 dropped. -/
theorem keep_characterization : ∀ move score : ℤ,
    keep move score = true ↔ (|score| ≤ 400 ∧ 0 ≤ move ∧ move ≤ 120) := by
  intro m s
  exact keep_iff m s

/-- C2 counterexample: the claim says an observation with move number 120 is
dropped, but the filter retains it and its count enters the win table. -/
theorem move120_retained :
    keep 120 0 = true
      ∧ (aggregate 328 [⟨Outcome.W, 120, 0, 0, 5⟩]).1.val ((0 : ℚ), 120) = 5 := by
  constructor
  · rfl
  · norm_num [aggregate, aggStep, coordOf, keep, PyCounter.add, PyCounter.empty]

/-- C3 (amended): when every raw entry has a positive occurrence count, every
coordinate of the sorted union of the three tables has total count at least 1,
so the rate divisions cannot divide by zero.  (The source contains no assert
of this invariant; with a zero count the invariant itself fails, see the
counterexample.) -/
theorem union_total_pos (N : ℤ) (input : List RawEntry)
    (hpos : ∀ e ∈ input, 1 ≤ e.count) :
    ∀ c ∈ pipelineCoords (aggregate N input), 1 ≤ totalAt (aggregate N input) c := by
  intro c hc
  rw [mem_coords_agg] at hc
  obtain ⟨e, he, hk, hcoord⟩ := hc
  rw [totalAt_aggregate]
  have hce := hpos e he
  cases ho : e.outcome
  · have hw : wWeight N c e = e.count := by
      unfold wWeight
      rw [if_pos ⟨hk, ho, hcoord⟩]
    have hle : wWeight N c e ≤ (input.map (wWeight N c)).sum :=
      List.le_sum_of_mem (List.mem_map_of_mem _ he)
    omega
  · have hw : dWeight N c e = e.count := by
      unfold dWeight
      rw [if_pos ⟨hk, ho, hcoord⟩]
    have hle : dWeight N c e ≤ (input.map (dWeight N c)).sum :=
      List.le_sum_of_mem (List.mem_map_of_mem _ he)
    omega
  · have hw : lWeight N c e = e.count := by
      unfold lWeight
      rw [if_pos ⟨hk, ho, hcoord⟩]
    have hle : lWeight N c e ≤ (input.map (lWeight N c)).sum :=
      List.le_sum_of_mem (List.mem_map_of_mem _ he)
    omega

/-- C3 witness: the amended theorem applied to a concrete two-entry input. -/
theorem union_total_pos_witness :
    (∀ e ∈ [(⟨Outcome.W, 10, 0, 0, 2⟩ : RawEntry), ⟨Outcome.L, 10, 0, 0, 2⟩], 1 ≤ e.count)
      ∧ ∀ c ∈ pipelineCoords (aggregate 328 [⟨Outcome.W, 10, 0, 0, 2⟩, ⟨Outcome.L, 10, 0, 0, 2⟩]),
          1 ≤ totalAt (aggregate 328 [⟨Outcome.W, 10, 0, 0, 2⟩, ⟨Outcome.L, 10, 0, 0, 2⟩]) c :=
  ⟨by decide, union_total_pos 328 _ (by decide)⟩

/-- C3 counterexample: an input whose only entry has occurrence count 0 puts
its coordinate into the sorted union while the total there is 0, refuting the
claimed invariant (and the rate computation would divide by zero there). -/
theorem zero_count_coordinate :
    ((0 : ℚ), (10 : ℤ)) ∈ pipelineCoords (aggregate 328 [⟨Outcome.W, 10, 0, 0, 0⟩])
      ∧ totalAt (aggregate 328 [⟨Outcome.W, 10, 0, 0, 0⟩]) ((0 : ℚ), (10 : ℤ)) = 0 := by
  constructor
  · norm_num [pipelineCoords, aggregate, aggStep, coordOf, keep, PyCounter.add, PyCounter.empty,
      List.insertionSort, List.orderedInsert]
  · norm_num [totalAt, aggregate, aggStep, coordOf, keep, PyCounter.add, PyCounter.empty]

/-- C7: at every coordinate whose total count is at least 1, the three
computed rates sum to exactly 1 and each lies in the interval 0 to 1. -/
theorem ratesAt_sum_one_and_bounds (cs : PyCounter × PyCounter × PyCounter) (c : ℚ × ℤ)
    (h : 1 ≤ totalAt cs c) :
    (ratesAt cs c).1 + (ratesAt cs c).2.1 + (ratesAt cs c).2.2 = 1
      ∧ 0 ≤ (ratesAt cs c).1 ∧ (ratesAt cs c).1 ≤ 1
      ∧ 0 ≤ (ratesAt cs c).2.1 ∧ (ratesAt cs c).2.1 ≤ 1
      ∧ 0 ≤ (ratesAt cs c).2.2 ∧ (ratesAt cs c).2.2 ≤ 1 := by
  have ht : (0 : ℚ) < (totalAt cs c : ℚ) := by
    exact_mod_cast Nat.lt_of_lt_of_le Nat.zero_lt_one h
  unfold ratesAt
  dsimp only
  refine ⟨?_, ?_, ?_, ?_, ?_, ?_, ?_⟩
  · rw [div_add_div_same, div_add_div_same, div_eq_one_iff_eq (ne_of_gt ht)]
    unfold totalAt
    push_cast
    ring
  · positivity
  · rw [div_le_one ht]
    exact_mod_cast (show cs.1.val c ≤ totalAt cs c by unfold totalAt; omega)
  · positivity
  · rw [div_le_one ht]
    exact_mod_cast (show cs.2.1.val c ≤ totalAt cs c by unfold totalAt; omega)
  · positivity
  · rw [div_le_one ht]
    exact_mod_cast (show cs.2.2.val c ≤ totalAt cs c by unfold totalAt; omega)

/-- C7 witness: the rate bounds at a concrete coordinate of a concrete input. -/
theorem ratesAt_sum_one_and_bounds_witness :
    (1 ≤ totalAt (aggregate 328 [⟨Outcome.W, 10, 0, 0, 2⟩, ⟨Outcome.L, 10, 0, 0, 2⟩])
        ((0 : ℚ), (10 : ℤ)))
      ∧ ((ratesAt (aggregate 328 [⟨Outcome.W, 10, 0, 0, 2⟩, ⟨Outcome.L, 10, 0, 0, 2⟩])
            ((0 : ℚ), (10 : ℤ))).1
          + (ratesAt (aggregate 328 [⟨Outcome.W, 10, 0, 0, 2⟩, ⟨Outcome.L, 10, 0, 0, 2⟩])
            ((0 : ℚ), (10 : ℤ))).2.1
          + (ratesAt (aggregate 328 [⟨Outcome.W, 10, 0, 0, 2⟩, ⟨Outcome.L, 10, 0, 0, 2⟩])
            ((0 : ℚ), (10 : ℤ))).2.2 = 1
        ∧ 0 ≤ (ratesAt (aggregate 328 [⟨Outcome.W, 10, 0, 0, 2⟩, ⟨Outcome.L, 10, 0, 0, 2⟩])
            ((0 : ℚ), (10 : ℤ))).1
        ∧ (ratesAt (aggregate 328 [⟨Outcome.W, 10, 0, 0, 2⟩, ⟨Outcome.L, 10, 0, 0, 2⟩])
            ((0 : ℚ), (10 : ℤ))).1 ≤ 1
        ∧ 0 ≤ (ratesAt (aggregate 328 [⟨Outcome.W, 10, 0, 0, 2⟩, ⟨Outcome.L, 10, 0, 0, 2⟩])
            ((0 : ℚ), (10 : ℤ))).2.1
        ∧ (ratesAt (aggregate 328 [⟨Outcome.W, 10, 0, 0, 2⟩, ⟨Outcome.L, 10, 0, 0, 2⟩])
            ((0 : ℚ), (10 : ℤ))).2.1 ≤ 1
        ∧ 0 ≤ (ratesAt (aggregate 328 [⟨Outcome.W, 10, 0, 0, 2⟩, ⟨Outcome.L, 10, 0, 0, 2⟩])
            ((0 : ℚ), (10 : ℤ))).2.2
        ∧ (ratesAt (aggregate 328 [⟨Outcome.W, 10, 0, 0, 2⟩, ⟨Outcome.L, 10, 0, 0, 2⟩])
            ((0 : ℚ), (10 : ℤ))).2.2 ≤ 1) := by
  refine ⟨?_, ratesAt_sum_one_and_bounds _ _ ?_⟩ <;>
    norm_num [totalAt, aggregate, aggStep, coordOf, keep, PyCounter.add, PyCounter.empty]

/-- C8 (amended): the retained total never exceeds the raw total, and the two
are equal exactly when every entry the filter rejects has occurrence count 0
(in particular when no entry violates the bounds). -/
theorem retained_monotone (N : ℤ) (input : List RawEntry) :
    totalRetained N input ≤ totalRaw input
      ∧ (totalRetained N input = totalRaw input
          ↔ ∀ e ∈ input, keep e.move e.score = false → e.count = 0) := by
  rw [totalRetained_eq]
  unfold totalRaw
  exact ⟨List.sum_le_sum (fun e _ => keptCount_le e), sum_kept_eq_iff input⟩

/-- C8 counterexample: an input whose single entry violates the move bound but
has count 0 keeps the totals equal, refuting the claimed equivalence between
equality of totals and absence of violating entries. -/
theorem retained_eq_with_violation :
    totalRetained 328 [⟨Outcome.W, 200, 0, 0, 0⟩] = totalRaw [⟨Outcome.W, 200, 0, 0, 0⟩]
      ∧ keep 200 0 = false := by
  constructor
  · norm_num [totalRetained, totalRaw, aggregate, aggStep, keep, PyCounter.total,
      PyCounter.empty]
  · rfl

theorem mem_fitLoopT_map_fst (fit : List ℚ → List ℚ → ℚ × ℚ) (samples : List (ℚ × ℤ × ℚ))
    (m : ℕ) :
    m ∈ (fitLoopT fit samples).map (fun t => t.1)
      ↔ m ∈ moveRange ∧ 10 ≤ (bucketData samples m).length := by
  unfold fitLoopT
  rw [List.mem_map]
  constructor
  · rintro ⟨t, ht, rfl⟩
    rw [List.mem_filterMap] at ht
    obtain ⟨m', hm', hf⟩ := ht
    dsimp only at hf
    by_cases hlen : (bucketData samples m').length < 10
    · rw [if_pos hlen] at hf
      cases hf
    · rw [if_neg hlen] at hf
      cases hf
      dsimp only
      exact ⟨hm', by omega⟩
  · rintro ⟨hm, hlen⟩
    refine ⟨(m, fit ((bucketData samples m).map (fun s => s.1))
        ((bucketData samples m).map (fun s => s.2.2))), ?_, rfl⟩
    rw [List.mem_filterMap]
    exact ⟨m, hm, by dsimp only; rw [if_neg (by omega)]⟩

/-- C6: a bucket in the fitting range is fitted (appears in the model lists)
precisely when it gathers at least 10 samples; with 9 or fewer it is skipped
silently. -/
theorem bucket_gate (fit : List ℚ → List ℚ → ℚ × ℚ) (samples : List (ℚ × ℤ × ℚ))
    (m : ℕ) (hm : m ∈ moveRange) :
    10 ≤ (bucketData samples m).length ↔ m ∈ (fitLoopT fit samples).map (fun t => t.1) := by
  rw [mem_fitLoopT_map_fst]
  exact ⟨fun h => ⟨hm, h⟩, fun h => h.2⟩

/-- C6 witness: the gate at bucket 3 of a concrete 10-sample input. -/
theorem bucket_gate_witness :
    3 ∈ moveRange
      ∧ (10 ≤ (bucketData (List.replicate 10 ((0 : ℚ), (3 : ℤ), (1 : ℚ))) 3).length
          ↔ 3 ∈ (fitLoopT (fun _ _ => ((328 : ℚ), (54 : ℚ)))
              (List.replicate 10 ((0 : ℚ), (3 : ℤ), (1 : ℚ)))).map (fun t => t.1)) :=
  ⟨by decide, bucket_gate _ _ 3 (by decide)⟩

theorem fitLoopEAux_error (fit : List ℚ → List ℚ → Option (ℚ × ℚ))
    (samples : List (ℚ × ℤ × ℚ)) (m : ℕ) :
    ∀ ms : List ℕ, m ∈ ms → 10 ≤ (bucketData samples m).length →
      fit ((bucketData samples m).map (fun s => s.1))
          ((bucketData samples m).map (fun s => s.2.2)) = none →
      fitLoopEAux fit samples ms = Except.error () := by
  intro ms
  induction ms with
  | nil =>
    intro h
    cases h
  | cons m' t ih =>
    intro hm hlen hfit
    rcases List.mem_cons.mp hm with heq | hm'
    · subst heq
      unfold fitLoopEAux
      dsimp only
      rw [if_neg (by omega), hfit]
    · unfold fitLoopEAux
      dsimp only
      by_cases hl : (bucketData samples m').length < 10
      · rw [if_pos hl]
        exact ih hm' hlen hfit
      · rw [if_neg hl]
        cases hf : fit ((bucketData samples m').map (fun s => s.1))
            ((bucketData samples m').map (fun s => s.2.2)) with
        | none => rfl
        | some p =>
          rw [ih hm' hlen hfit]
          rfl

/-- C9 (amended): a per-bucket fit failure is not recovered: if any bucket in
the fitting range gathers at least 10 samples and the fit oracle fails there,
the whole run fails with an error - the exception propagates out of the loop
and no bucket exclusion takes place.  (Only the insufficient-data case of C6
skips a bucket and continues.) -/
theorem fit_failure_fatal (fit : List ℚ → List ℚ → Option (ℚ × ℚ))
    (samples : List (ℚ × ℤ × ℚ)) (m : ℕ) (hm : m ∈ moveRange)
    (hlen : 10 ≤ (bucketData samples m).length)
    (hfit : fit ((bucketData samples m).map (fun s => s.1))
        ((bucketData samples m).map (fun s => s.2.2)) = none) :
    fitLoopE fit samples = Except.error () :=
  fitLoopEAux_error fit samples m moveRange hm hlen hfit

/-- C9 witness: the amended theorem applied to a concrete input with a
qualifying bucket at move 3 and a failing fit oracle. -/
theorem fit_failure_fatal_witness :
    3 ∈ moveRange
      ∧ 10 ≤ (bucketData (List.replicate 10 ((0 : ℚ), (3 : ℤ), (1 : ℚ))) 3).length
      ∧ fitLoopE (fun _ _ => (none : Option (ℚ × ℚ)))
          (List.replicate 10 ((0 : ℚ), (3 : ℤ), (1 : ℚ))) = Except.error () :=
  ⟨by decide, by decide,
    fit_failure_fatal (fun _ _ => none) (List.replicate 10 ((0 : ℚ), (3 : ℤ), (1 : ℚ)))
      3 (by decide) (by decide) rfl⟩

/-- C9 counterexample: the claim says a diverging bucket fit is excluded like
the insufficient-data case and the run continues; on a concrete input whose
bucket at move 3 qualifies with 10 samples, a fit failure instead aborts the
whole run with an error (the result is not an ok-continuation). -/
theorem fit_failure_not_recovered :
    10 ≤ (bucketData (List.replicate 10 ((0 : ℚ), (3 : ℤ), (1 : ℚ))) 3).length
      ∧ fitLoopE (fun _ _ => (none : Option (ℚ × ℚ)))
          (List.replicate 10 ((0 : ℚ), (3 : ℤ), (1 : ℚ))) = Except.error () := by
  constructor
  · decide
  · rfl

/-- C4: the three per-mille integers of the WDL predictor sum to exactly 1000
for every input, the draw being computed as the exact remainder
`1000 - win - loss` and not by an independent rounding. -/
theorem wdl_conservation (score move : ℝ) (popt_as popt_bs : ℝ × ℝ × ℝ × ℝ)
    (moveTarget : ℝ) :
    (wdl score move popt_as popt_bs moveTarget).1
        + (wdl score move popt_as popt_bs moveTarget).2.1
        + (wdl score move popt_as popt_bs moveTarget).2.2 = 1000
      ∧ (wdl score move popt_as popt_bs moveTarget).2.1
          = 1000 - (wdl score move popt_as popt_bs moveTarget).1
              - (wdl score move popt_as popt_bs moveTarget).2.2 := by
  unfold wdl
  dsimp only
  constructor <;> ring

theorem winmodel_pos (x a b : ℝ) : 0 < winmodel x a b := by
  unfold winmodel
  have h10 : (1.0 : ℝ) = 1 := by norm_num
  rw [h10]
  have he : 0 < Real.exp (-(x - a) / b) := Real.exp_pos _
  positivity

theorem pytruncR_eq_floor {x : ℝ} (h : 0 ≤ x) : pytruncR x = ⌊x⌋ := by
  unfold pytruncR
  rw [if_pos h]

/-- C5 (amended): for every input the WDL predictor returns
win = floor(1000 * winProbability(score)) and
loss = floor(1000 * winProbability(-score)): Python int() truncation (equal to
the floor here since the values are positive), not rounding to the nearest
integer. -/
theorem wdl_win_loss_floor (score move : ℝ) (popt_as popt_bs : ℝ × ℝ × ℝ × ℝ)
    (moveTarget : ℝ) :
    (wdl score move popt_as popt_bs moveTarget).1
        = ⌊1000 * winmodel score (poly3 moveTarget move popt_as)
            (poly3 moveTarget move popt_bs)⌋
      ∧ (wdl score move popt_as popt_bs moveTarget).2.2
        = ⌊1000 * winmodel (-score) (poly3 moveTarget move popt_as)
            (poly3 moveTarget move popt_bs)⌋ := by
  unfold wdl
  dsimp only
  constructor
  · exact pytruncR_eq_floor
      (mul_nonneg (by norm_num) (le_of_lt (winmodel_pos _ _ _)))
  · exact pytruncR_eq_floor
      (mul_nonneg (by norm_num) (le_of_lt (winmodel_pos _ _ _)))

/-- C5 counterexample: at score -1, move 32, and coefficient sets giving
a = 0 and b = 1, the predictor returns win = 268 = floor(1000/(1+e)), while
rounding 1000/(1+e) = 268.94... to the nearest integer gives 269: the win
output is the truncation, not the claimed round. -/
theorem wdl_win_not_round :
    (wdl (-1) 32 (0, 0, 0, 0) (0, 0, 0, 1) 32).1
      ≠ round (1000 * winmodel (-1) (poly3 32 32 (0, 0, 0, 0)) (poly3 32 32 (0, 0, 0, 1))) := by
  have hpa : poly3 32 32 ((0 : ℝ), 0, 0, 0) = 0 := by norm_num [poly3]
  have hpb : poly3 32 32 ((0 : ℝ), 0, 0, 1) = 1 := by norm_num [poly3]
  have hwm : winmodel (-1) 0 1 = 1 / (1 + Real.exp 1) := by
    unfold winmodel
    norm_num
  have he1 : (2.7182818283 : ℝ) < Real.exp 1 := Real.exp_one_gt_d9
  have he2 : Real.exp 1 < 2.7182818286 := Real.exp_one_lt_d9
  have hd : (0 : ℝ) < 1 + Real.exp 1 := by positivity
  have hx1 : (268.5 : ℝ) ≤ 1000 * (1 / (1 + Real.exp 1)) := by
    rw [mul_one_div, le_div_iff hd]
    nlinarith
  have hx2 : 1000 * (1 / (1 + Real.exp 1)) < (269 : ℝ) := by
    rw [mul_one_div, div_lt_iff hd]
    nlinarith
  have hfl : ⌊1000 * (1 / (1 + Real.exp 1))⌋ = 268 := by
    rw [Int.floor_eq_iff]
    push_cast
    constructor
    · linarith
    · linarith
  have hr : round (1000 * (1 / (1 + Real.exp 1))) = 269 := by
    rw [round_eq, Int.floor_eq_iff]
    push_cast
    constructor
    · linarith
    · linarith
  have hL : (wdl (-1) 32 (0, 0, 0, 0) (0, 0, 0, 1) 32).1 = 268 := by
    unfold wdl
    dsimp only
    rw [hpa, hpb, hwm, pytruncR_eq_floor (by positivity)]
    exact hfl
  rw [hL, hpa, hpb, hwm, hr]
  decide

/-- C1 (amended): the Normalization Calculator computes
constant = trunc(sum of a-trend coefficients) and
spread = trunc(sum of b-trend coefficients) (Python int(), truncation toward
zero, not round-to-nearest), and computes both normalizedSpread and
drawRateAtZero from the UNROUNDED sums: normalizedSpread = fsum_b / fsum_a and
drawRateAtZero = 1 - 2/(1 + exp(fsum_a / fsum_b)). -/
theorem normalization_outputs (pa pb : ℚ × ℚ × ℚ × ℚ) :
    normConstant pa = pytrunc (pa.1 + pa.2.1 + pa.2.2.1 + pa.2.2.2)
      ∧ normSpread pb = pytrunc (pb.1 + pb.2.1 + pb.2.2.1 + pb.2.2.2)
      ∧ normalizedSpread pa pb
          = (pb.1 + pb.2.1 + pb.2.2.1 + pb.2.2.2) / (pa.1 + pa.2.1 + pa.2.2.1 + pa.2.2.2)
      ∧ drawRateAtZero pa pb
          = 1 - 2 / (1 + Real.exp (((pa.1 + pa.2.1 + pa.2.2.1 + pa.2.2.2 : ℚ) : ℝ)
              / ((pb.1 + pb.2.1 + pb.2.2.1 + pb.2.2.2 : ℚ) : ℝ))) := by
  refine ⟨rfl, rfl, rfl, ?_⟩
  unfold drawRateAtZero fsum
  push_cast
  ring_nf

/-- C1 counterexample: with a-trend coefficients (1, 1, 1, 1/2) (sum 7/2) and
b-trend coefficients (0, 0, 1, 1/2) (sum 3/2), the printed constant is the
truncation 3 while round(7/2) = 4; the printed normalized spread is the
unrounded (3/2)/(7/2) = 3/7 rather than spread/constant = 1/3; and the
printed draw rate uses exp of the unrounded (7/2)/(3/2) = 7/3, not
exp(constant/spread) = exp(3). -/
theorem normalization_claim_false :
    normConstant (1, 1, 1, 1/2) ≠ round (fsum (1, 1, 1, 1/2))
      ∧ normalizedSpread (1, 1, 1, 1/2) (0, 0, 1, 1/2)
          ≠ (normSpread (0, 0, 1, 1/2) : ℚ) / (normConstant (1, 1, 1, 1/2) : ℚ)
      ∧ drawRateAtZero (1, 1, 1, 1/2) (0, 0, 1, 1/2)
          ≠ 1 - 2 / (1 + Real.exp ((normConstant (1, 1, 1, 1/2) : ℝ)
              / (normSpread (0, 0, 1, 1/2) : ℝ))) := by
  have hc : normConstant (1, 1, 1, 1/2) = 3 := by
    norm_num [normConstant, fsum, pytrunc]
  have hs : normSpread (0, 0, 1, 1/2) = 1 := by
    norm_num [normSpread, fsum, pytrunc]
  refine ⟨?_, ?_, ?_⟩
  · rw [hc]
    norm_num [fsum, round_eq]
  · rw [hc, hs]
    norm_num [normalizedSpread, fsum]
  · rw [hc, hs]
    have hL : drawRateAtZero (1, 1, 1, 1/2) (0, 0, 1, 1/2)
        = 1 - 2 / (1 + Real.exp ((7 : ℝ) / 3)) := by
      unfold drawRateAtZero fsum
      norm_num
    rw [hL]
    have h73 : ((7 : ℝ) / 3) < 3 := by norm_num
    have hexp : Real.exp (7 / 3) < Real.exp 3 := Real.exp_lt_exp.mpr h73
    have h1 : (0 : ℝ) < 1 + Real.exp (7 / 3) := by positivity
    have hlt : 2 / (1 + Real.exp 3) < 2 / (1 + Real.exp (7 / 3)) :=
      div_lt_div_of_pos_left (by norm_num) h1 (by linarith)
    intro heq
    have hcast : ((3 : ℤ) : ℝ) / ((1 : ℤ) : ℝ) = 3 := by norm_num
    rw [hcast] at heq
    linarith

theorem relevant_of_inBucket {m : ℕ} {mv : ℤ} (hm : m ∈ moveRange)
    (hb : inBucket m mv = true) : relevantMove mv = true := by
  rw [moveRange, List.mem_range'] at hm
  obtain ⟨i, hi, hmi⟩ := hm
  unfold inBucket at hb
  split_ifs at hb with h
  push_neg at h
  obtain ⟨h1, h2⟩ := h
  simp only [grouping, Nat.cast_one] at h2
  simp only [relevantMove, Bool.not_eq_true', Bool.or_eq_false_iff, beq_eq_false_iff_ne,
    ne_eq]
  subst hmi
  simp only [grouping, one_mul] at h1 h2 ⊢
  omega

theorem bucketData_filter_relevant {m : ℕ} (hm : m ∈ moveRange)
    (samples : List (ℚ × ℤ × ℚ)) :
    bucketData (samples.filter relevantS) m = bucketData samples m := by
  unfold bucketData
  rw [List.filter_filter]
  refine List.filter_congr (fun s _ => ?_)
  cases hb : inBucket m s.2.1
  · simp
  · simp [relevantS, relevant_of_inBucket hm hb]

theorem fitLoopT_eq_of_buckets (fit : List ℚ → List ℚ → ℚ × ℚ)
    {s1 s2 : List (ℚ × ℤ × ℚ)}
    (h : ∀ m ∈ moveRange, bucketData s1 m = bucketData s2 m) :
    fitLoopT fit s1 = fitLoopT fit s2 := by
  unfold fitLoopT
  refine List.filterMap_congr (fun m hm => ?_)
  dsimp only
  rw [h m hm]

theorem fitLoopT_eq_of_filter_eq (fit : List ℚ → List ℚ → ℚ × ℚ)
    {s1 s2 : List (ℚ × ℤ × ℚ)} (h : s1.filter relevantS = s2.filter relevantS) :
    fitLoopT fit s1 = fitLoopT fit s2 := by
  have e1 : fitLoopT fit (s1.filter relevantS) = fitLoopT fit s1 :=
    fitLoopT_eq_of_buckets fit (fun m hm => bucketData_filter_relevant hm s1)
  have e2 : fitLoopT fit (s2.filter relevantS) = fitLoopT fit s2 :=
    fitLoopT_eq_of_buckets fit (fun m hm => bucketData_filter_relevant hm s2)
  rw [← e1, ← e2, h]

theorem sum_map_eq_sum_filter {α : Type} (l : List α) (f : α → ℕ) (p : α → Bool)
    (h : ∀ a ∈ l, f a ≠ 0 → p a = true) :
    ((l.filter p).map f).sum = (l.map f).sum := by
  induction l with
  | nil => rfl
  | cons a t ih =>
    have ht := ih (fun x hx => h x (List.mem_cons_of_mem a hx))
    cases hp : p a
    · have hfa : f a = 0 := by
        by_contra hne
        exact absurd (h a (List.mem_cons_self a t) hne) (by simp [hp])
      simp [List.filter_cons, hp, ht, hfa]
    · simp [List.filter_cons, hp, ht]

theorem wWeight_relevant (N : ℤ) (c : ℚ × ℤ) (hc : relevantMove c.2 = true)
    (e : RawEntry) (hne : wWeight N c e ≠ 0) : relevantE e = true := by
  unfold wWeight at hne
  split_ifs at hne with h
  · obtain ⟨-, -, hco⟩ := h
    unfold relevantE
    have hmove : e.move = c.2 := congrArg Prod.snd hco
    rw [hmove]
    exact hc
  · exact absurd rfl hne

theorem dWeight_relevant (N : ℤ) (c : ℚ × ℤ) (hc : relevantMove c.2 = true)
    (e : RawEntry) (hne : dWeight N c e ≠ 0) : relevantE e = true := by
  unfold dWeight at hne
  split_ifs at hne with h
  · obtain ⟨-, -, hco⟩ := h
    unfold relevantE
    have hmove : e.move = c.2 := congrArg Prod.snd hco
    rw [hmove]
    exact hc
  · exact absurd rfl hne

theorem lWeight_relevant (N : ℤ) (c : ℚ × ℤ) (hc : relevantMove c.2 = true)
    (e : RawEntry) (hne : lWeight N c e ≠ 0) : relevantE e = true := by
  unfold lWeight at hne
  split_ifs at hne with h
  · obtain ⟨-, -, hco⟩ := h
    unfold relevantE
    have hmove : e.move = c.2 := congrArg Prod.snd hco
    rw [hmove]
    exact hc
  · exact absurd rfl hne

theorem val_w_filter_eq (N : ℤ) {in1 in2 : List RawEntry}
    (hin : in1.filter relevantE = in2.filter relevantE) {c : ℚ × ℤ}
    (hc : relevantMove c.2 = true) :
    (aggregate N in1).1.val c = (aggregate N in2).1.val c := by
  rw [aggregate_val_w, aggregate_val_w,
    ← sum_map_eq_sum_filter in1 (wWeight N c) relevantE
      (fun e _ h => wWeight_relevant N c hc e h),
    ← sum_map_eq_sum_filter in2 (wWeight N c) relevantE
      (fun e _ h => wWeight_relevant N c hc e h),
    hin]

theorem val_d_filter_eq (N : ℤ) {in1 in2 : List RawEntry}
    (hin : in1.filter relevantE = in2.filter relevantE) {c : ℚ × ℤ}
    (hc : relevantMove c.2 = true) :
    (aggregate N in1).2.1.val c = (aggregate N in2).2.1.val c := by
  rw [aggregate_val_d, aggregate_val_d,
    ← sum_map_eq_sum_filter in1 (dWeight N c) relevantE
      (fun e _ h => dWeight_relevant N c hc e h),
    ← sum_map_eq_sum_filter in2 (dWeight N c) relevantE
      (fun e _ h => dWeight_relevant N c hc e h),
    hin]

theorem val_l_filter_eq (N : ℤ) {in1 in2 : List RawEntry}
    (hin : in1.filter relevantE = in2.filter relevantE) {c : ℚ × ℤ}
    (hc : relevantMove c.2 = true) :
    (aggregate N in1).2.2.val c = (aggregate N in2).2.2.val c := by
  rw [aggregate_val_l, aggregate_val_l,
    ← sum_map_eq_sum_filter in1 (lWeight N c) relevantE
      (fun e _ h => lWeight_relevant N c hc e h),
    ← sum_map_eq_sum_filter in2 (lWeight N c) relevantE
      (fun e _ h => lWeight_relevant N c hc e h),
    hin]

theorem mem_coords_of_filter_eq (N : ℤ) {in1 in2 : List RawEntry}
    (hin : in1.filter relevantE = in2.filter relevantE) {c : ℚ × ℤ}
    (hc : relevantMove c.2 = true) (h1 : c ∈ pipelineCoords (aggregate N in1)) :
    c ∈ pipelineCoords (aggregate N in2) := by
  rw [mem_coords_agg] at h1 ⊢
  obtain ⟨e, he, hk, hco⟩ := h1
  have hrel : relevantE e = true := by
    unfold relevantE
    have hmove : e.move = c.2 := congrArg Prod.snd hco
    rw [hmove]
    exact hc
  have hmem : e ∈ in1.filter relevantE := List.mem_filter.mpr ⟨he, hrel⟩
  rw [hin] at hmem
  exact ⟨e, (List.mem_filter.mp hmem).1, hk, hco⟩

theorem totalAt_filter_eq (N : ℤ) {in1 in2 : List RawEntry}
    (hin : in1.filter relevantE = in2.filter relevantE) {c : ℚ × ℤ}
    (hc : relevantMove c.2 = true) :
    totalAt (aggregate N in1) c = totalAt (aggregate N in2) c := by
  unfold totalAt
  rw [val_w_filter_eq N hin hc, val_d_filter_eq N hin hc, val_l_filter_eq N hin hc]

theorem coords_filter_eq (N : ℤ) {in1 in2 : List RawEntry}
    (hin : in1.filter relevantE = in2.filter relevantE) :
    (pipelineCoords (aggregate N in1)).filter (fun c => relevantMove c.2)
      = (pipelineCoords (aggregate N in2)).filter (fun c => relevantMove c.2) := by
  have hs1 : List.Sorted tupLE ((pipelineCoords (aggregate N in1)).filter
      (fun c => relevantMove c.2)) := (pipelineCoords_sorted _).filter _
  have hs2 : List.Sorted tupLE ((pipelineCoords (aggregate N in2)).filter
      (fun c => relevantMove c.2)) := (pipelineCoords_sorted _).filter _
  have hperm : ((pipelineCoords (aggregate N in1)).filter (fun c => relevantMove c.2)).Perm
      ((pipelineCoords (aggregate N in2)).filter (fun c => relevantMove c.2)) := by
    rw [List.perm_ext_iff_of_nodup ((pipelineCoords_nodup _).filter _)
      ((pipelineCoords_nodup _).filter _)]
    intro c
    simp only [List.mem_filter]
    constructor
    · rintro ⟨hc1, hrel⟩
      exact ⟨mem_coords_of_filter_eq N hin hrel hc1, hrel⟩
    · rintro ⟨hc2, hrel⟩
      exact ⟨mem_coords_of_filter_eq N hin.symm hrel hc2, hrel⟩
  exact List.eq_of_perm_of_sorted hperm hs1 hs2

theorem sampleList_filter_eq (N : ℤ) {in1 in2 : List RawEntry}
    (hin : in1.filter relevantE = in2.filter relevantE) :
    (sampleList N in1).filter relevantS = (sampleList N in2).filter relevantS := by
  unfold sampleList
  dsimp only
  rw [List.filter_map, List.filter_map]
  have hp1 : (pipelineCoords (aggregate N in1)).filter
        (relevantS ∘ fun c => (c.1, c.2, (ratesAt (aggregate N in1) c).1))
      = (pipelineCoords (aggregate N in1)).filter (fun c => relevantMove c.2) :=
    List.filter_congr (fun c _ => rfl)
  have hp2 : (pipelineCoords (aggregate N in2)).filter
        (relevantS ∘ fun c => (c.1, c.2, (ratesAt (aggregate N in2) c).1))
      = (pipelineCoords (aggregate N in2)).filter (fun c => relevantMove c.2) :=
    List.filter_congr (fun c _ => rfl)
  rw [hp1, hp2, coords_filter_eq N hin]
  refine List.map_congr_left (fun c hc => ?_)
  have hrel : relevantMove c.2 = true := (List.mem_filter.mp hc).2
  have hr : (ratesAt (aggregate N in1) c).1 = (ratesAt (aggregate N in2) c).1 := by
    unfold ratesAt
    dsimp only
    rw [val_w_filter_eq N hin hrel, totalAt_filter_eq N hin hrel]
  rw [hr]

/-- C10: observations at move numbers 0, 1, 2 and 120 pass the aggregation
filter (for in-bounds scores) yet fall in no fitting bucket: two inputs that
agree on all entries at other move numbers produce the identical per-bucket
parameter sequence, the identical two cross-move coefficient sets, and the
identical four normalization outputs. -/
theorem irrelevant_moves_invariance (N : ℤ) (fit : List ℚ → List ℚ → ℚ × ℚ)
    (pfit : List ℕ → List ℚ → ℚ × ℚ × ℚ × ℚ) (in1 in2 : List RawEntry)
    (hin : in1.filter relevantE = in2.filter relevantE) :
    (∀ mv s : ℤ, (mv = 0 ∨ mv = 1 ∨ mv = 2 ∨ mv = 120) → |s| ≤ 400 → keep mv s = true)
      ∧ pipeline N fit pfit in1 = pipeline N fit pfit in2
      ∧ normConstant (pipeline N fit pfit in1).2.1 = normConstant (pipeline N fit pfit in2).2.1
      ∧ normSpread (pipeline N fit pfit in1).2.2 = normSpread (pipeline N fit pfit in2).2.2
      ∧ normalizedSpread (pipeline N fit pfit in1).2.1 (pipeline N fit pfit in1).2.2
          = normalizedSpread (pipeline N fit pfit in2).2.1 (pipeline N fit pfit in2).2.2
      ∧ drawRateAtZero (pipeline N fit pfit in1).2.1 (pipeline N fit pfit in1).2.2
          = drawRateAtZero (pipeline N fit pfit in2).2.1 (pipeline N fit pfit in2).2.2 := by
  have hfit : fitLoopT fit (sampleList N in1) = fitLoopT fit (sampleList N in2) :=
    fitLoopT_eq_of_filter_eq fit (sampleList_filter_eq N hin)
  have hpipe : pipeline N fit pfit in1 = pipeline N fit pfit in2 := by
    unfold pipeline
    rw [hfit]
  refine ⟨?_, hpipe, by rw [hpipe], by rw [hpipe], by rw [hpipe], by rw [hpipe]⟩
  intro mv s hmv hs
  rw [keep_iff]
  rcases hmv with rfl | rfl | rfl | rfl <;> exact ⟨hs, by norm_num, by norm_num⟩

/-- C10 witness: the invariance theorem applied to a concrete input and its
extension by observations at moves 120 and 2. -/
theorem irrelevant_moves_invariance_witness :
    ([(⟨Outcome.W, 10, 0, 0, 5⟩ : RawEntry), ⟨Outcome.L, 10, 0, 0, 5⟩].filter relevantE
        = [(⟨Outcome.W, 10, 0, 0, 5⟩ : RawEntry), ⟨Outcome.L, 10, 0, 0, 5⟩,
            ⟨Outcome.D, 120, 0, 0, 7⟩, ⟨Outcome.W, 2, 1, 3, 4⟩].filter relevantE)
      ∧ pipeline 328 (fun _ _ => ((1 : ℚ), (2 : ℚ))) (fun _ _ => ((1 : ℚ), 2, 3, 4))
            [⟨Outcome.W, 10, 0, 0, 5⟩, ⟨Outcome.L, 10, 0, 0, 5⟩]
          = pipeline 328 (fun _ _ => ((1 : ℚ), (2 : ℚ))) (fun _ _ => ((1 : ℚ), 2, 3, 4))
            [⟨Outcome.W, 10, 0, 0, 5⟩, ⟨Outcome.L, 10, 0, 0, 5⟩,
              ⟨Outcome.D, 120, 0, 0, 7⟩, ⟨Outcome.W, 2, 1, 3, 4⟩] :=
  ⟨by decide,
    (irrelevant_moves_invariance 328 (fun _ _ => ((1 : ℚ), (2 : ℚ)))
      (fun _ _ => ((1 : ℚ), 2, 3, 4)) _ _ (by decide)).2.1⟩
